import Mathlib

/-!
Verification development for `jhsiao.decorate.extends` (file
`src/jhsiao/decorate/extends.py`), a utility that composes docstrings
across inheritance hierarchies.

The Python source is shallowly embedded: strings are Lean `String`
(manipulated through their `List Char` data), a function object's
mutable `__doc__` field lives in an explicit store `DocStore` keyed by a
function identity, classes are `TypeState` records, and Python's
class-level `getattr` (including the descriptor protocol that the
source's `Extend.__get__` participates in) is modelled explicitly.
Fallible operations (plain `getattr` without a default, `unindent` on a
missing docstring) return `Option`.
-/

namespace JhsiaoDecorate

/-! ### Substring test (Python's `in` operator on `str`) -/

/-- Boolean prefix test on character lists. -/
def isPre : List Char → List Char → Bool
  | [], _ => true
  | _ :: _, [] => false
  | a :: as, b :: bs => a == b && isPre as bs

/-- Boolean substring (contiguous infix) test on character lists;
`isSub n h` models Python's `n in h` for strings. -/
def isSub (n : List Char) : List Char → Bool
  | [] => n.isEmpty
  | b :: bs => isPre n (b :: bs) || isSub n bs

/-- Python's `n in h` substring test on strings. -/
def substr (n h : String) : Bool := isSub n.data h.data

/-! ### Normalization helper

Modelled from the spec: the normalization helper `unindent` comes from
`jhsiao.utils.strutils`, a sibling package whose source is not part of
this repository.  Per the spec it removes the common leading whitespace
of all non-blank lines after the first; space-only indentation and
leaving blank lines untouched are the modelled tie-breaks (the spec
declares such tie-breaks implementation details). -/

/-- Split a character list at newline characters; mirrors Python's
`s.split('\n')` (so the empty string yields one empty line). -/
def splitNl : List Char → List (List Char)
  | [] => [[]]
  | c :: cs =>
    if c = '\n' then [] :: splitNl cs
    else
      match splitNl cs with
      | [] => [[c]]
      | l :: ls => (c :: l) :: ls

/-- Join lines with newline characters; inverse of `splitNl`. -/
def joinNl : List (List Char) → List Char
  | [] => []
  | [l] => l
  | l :: ls => l ++ '\n' :: joinNl ls

/-- Number of leading space characters of a line. -/
def countIndent : List Char → Nat
  | ' ' :: t => countIndent t + 1
  | _ => 0

/-- A blank line is empty or all spaces. -/
def isBlank (l : List Char) : Bool := l.all (· == ' ')

/-- Minimum of a list of naturals, `0` for the empty list. -/
def minNat : List Nat → Nat
  | [] => 0
  | [x] => x
  | x :: xs => min x (minNat xs)

/-- Modelled from the spec: `unindent` strips the common leading
whitespace from all non-blank lines after the first line. -/
def unindent (s : String) : String :=
  match splitNl s.data with
  | [] => s
  | first :: rest =>
    match rest.filter (fun l => !isBlank l) with
    | [] => s
    | nb =>
      let n := minNat (nb.map countIndent)
      ⟨joinNl (first :: rest.map (fun l => if isBlank l then l else l.drop n))⟩

/-- Python's `'\n\n'.join` on character lists. -/
def joinSepL : List (List Char) → List Char
  | [] => []
  | [x] => x
  | x :: xs => x ++ '\n' :: '\n' :: joinSepL xs

/-- Python's `'\n\n'.join(docs)`. -/
def joinSep (l : List String) : String := ⟨joinSepL (l.map String.data)⟩

/-! ### Data model

A function object is identified by a `Nat` identity; its mutable
`__doc__` field lives in a `DocStore`.  Class attributes (`Member`)
are plain functions, wrappers exposing an underlying `__func__`
(classmethod/bound-method-like), `Extend` markers (the source's
transient wrapper class), or other data objects, which may or may not
expose a `__doc__` attribute and have no `__get__`. -/

/-- Mutable `__doc__` fields of function objects, keyed by identity. -/
def DocStore : Type := Nat → Option String

/-- Write one function object's `__doc__`. -/
def updStore (σ : DocStore) (fid : Nat) (d : Option String) : DocStore :=
  fun n => if n = fid then d else σ n

/-- A class attribute value. -/
inductive Member : Type where
  | func (fid : Nat) (nm : String)
  | boundm (fid : Nat) (nm : String)
  | marked (t : Member)
  | data (docAttr : Option (Option String))
  deriving DecidableEq

/-- A class: its own `__doc__` and its own attribute dictionary. -/
structure TypeState : Type where
  doc : Option String
  own : List (String × Member)
  deriving DecidableEq

/-- An entry of `cls.mro()`: either the common root `object` or an
ordinary class.  The root carries a full class state too: its docstring
and its own members (`object`'s slot wrappers such as `__init__` and
`__repr__`, which have docstrings, are not function objects and expose
no `__func__`; they are modelled as `Member.data` carrying their
doc). -/
inductive MroEntry : Type where
  | root (c : TypeState)
  | cls (c : TypeState)
  deriving DecidableEq

/-- Lines 126 and 147: `[c for c in item.mro() if c is not object]`. -/
def pruneMro (l : List MroEntry) : List TypeState :=
  l.filterMap fun e => match e with
    | .root _ => none
    | .cls c => some c

/-- The root entries of an mro tail: although lines 126/147 drop
`object` from the iterated list, every class object in that list still
reaches `object` through its own `__mro__` when `getattr` is applied to
it, so the root states remain the tail of every lookup chain. -/
def rootsOf (l : List MroEntry) : List TypeState :=
  l.filterMap fun e => match e with
    | .root c => some c
    | .cls _ => none

/-- Look up a name in a class's own dictionary. -/
def lookupOwn (own : List (String × Member)) (k : String) : Option Member :=
  (own.find? (fun p => p.1 == k)).map (fun p => p.2)

/-- Raw MRO attribute lookup: first own-dictionary hit along the
linearization. -/
def rawLookup : List TypeState → String → Option Member
  | [], _ => none
  | c :: rest, k =>
    match lookupOwn c.own k with
    | some m => some m
    | none => rawLookup rest k

/-- Class-level descriptor invocation `v.__get__(None, cls)`.
Functions return themselves, `__func__`-bearing wrappers their bound
form (modelled as themselves: same `__func__`, same `__doc__`), and
the source's `Extend.__get__` (lines 108-109) forwards to the wrapped
member's `__get__`.  Plain data has no `__get__`; the `none` result of
forwarding to it models the `AttributeError` that then escapes. -/
def dunderGet : Member → Option Member
  | .func f n => some (.func f n)
  | .boundm f n => some (.boundm f n)
  | .marked t => dunderGet t
  | .data _ => none

/-- Python's class attribute access `getattr(cls, k)`: raw MRO lookup,
then descriptor invocation when the found value's type defines
`__get__` (functions, `__func__` wrappers and `Extend` instances do;
plain data does not and is returned as-is).  `none` models
`AttributeError`. -/
def classGetattr (chain : List TypeState) (k : String) : Option Member :=
  match rawLookup chain k with
  | none => none
  | some (Member.data d) => some (.data d)
  | some m => dunderGet m

/-- The `Extend` class's own docstring (line 98 of the source); it is
what instance attribute lookup finds for `__doc__` on a marker, since
`__getattr__` is only consulted for names that normal lookup misses. -/
def extendClassDocstr : String :=
  "Temporary class to mark this item as requiring extending."

/-- Read `getattr(x, '__doc__', None)` of a member. -/
def memberDoc (σ : DocStore) : Member → Option String
  | .func f _ => σ f
  | .boundm f _ => σ f
  | .marked _ => some extendClassDocstr
  | .data d => d.join

/-- Read `getattr(x, '__func__')` of a member (`none` models
`AttributeError`): plain functions have no `__func__`, wrappers expose
their function, and `Extend.__getattr__` (lines 105-106) forwards the
lookup to the wrapped member. -/
def memberFuncAttr : Member → Option Member
  | .func _ _ => none
  | .boundm f n => some (.func f n)
  | .marked t => memberFuncAttr t
  | .data _ => none

/-- Read `getattr(x, '__name__')` of a member (`none` models
`AttributeError`); `Extend.__getattr__` forwards it. -/
def memberName : Member → Option String
  | .func _ n => some n
  | .boundm _ n => some n
  | .marked t => memberName t
  | .data _ => none

/-- `hasattr(x, '__doc__')`: functions, `__func__` wrappers and
`Extend` instances always expose `__doc__`; other data objects only
when they carry the attribute. -/
def hasDocAttrB : Member → Bool
  | .func _ _ => true
  | .boundm _ _ => true
  | .marked _ => true
  | .data d => d.isSome

/-- Values produced by generic attribute access in the model. -/
inductive Val : Type where
  | vStr (s : String)
  | vNone
  | vMem (m : Member)
  | vOther (tag : String)
  deriving DecidableEq

/-- A `__doc__` field as a Python value. -/
def optDocVal : Option String → Val
  | none => .vNone
  | some s => .vStr s

/-- Names that resolve on an `Extend` instance itself (its instance
dictionary entry `thing`, and attributes found on the `Extend` class or
its base `object`) before `__getattr__` is ever consulted. -/
def extendShadowed : List String :=
  ["thing", "__doc__", "__repr__", "__init__", "__getattr__", "__get__",
   "__call__", "__class__", "__dict__", "__module__", "__new__"]

/-- Instance attribute access `getattr(x, name)` in the model (`none`
is `AttributeError`).  Only the attributes the source touches are
modelled on functions and wrappers.  For an `Extend` instance, normal
lookup first finds `thing` (instance dictionary) and the names shadowed
by the `Extend` class itself - in particular `__doc__`, which yields
the `Extend` class docstring - and only then does `__getattr__`
forward the access to the wrapped member (lines 105-106). -/
def objGetattr (σ : DocStore) : Member → String → Option Val
  | .func f nm, a =>
    if a = "__doc__" then some (optDocVal (σ f))
    else if a = "__name__" then some (.vStr nm)
    else none
  | .boundm f nm, a =>
    if a = "__doc__" then some (optDocVal (σ f))
    else if a = "__name__" then some (.vStr nm)
    else if a = "__func__" then some (.vMem (.func f nm))
    else none
  | .marked t, a =>
    if a = "thing" then some (.vMem t)
    else if a = "__doc__" then some (.vStr extendClassDocstr)
    else if a ∈ extendShadowed then some (.vOther a)
    else objGetattr σ t a
  | .data d, a =>
    if a = "__doc__" then
      match d with
      | none => none
      | some v => some (optDocVal v)
    else none

/-- Invocation, parametrised by the pure behaviour `impl` of function
objects.  `Extend.__call__` (lines 111-112) forwards to the wrapped
member; plain data is not callable. -/
def callMember (impl : Nat → List Val → Option Val) : Member → List Val → Option Val
  | .func f _, a => impl f a
  | .boundm f _, a => impl f a
  | .marked t, a => callMember impl t a
  | .data _, _ => none

/-! ### The chain resolver: `extends_` (lines 30-46) -/

/-- One iteration of the loop at lines 43-44:
`if not docs or docs[-1] not in doc: docs.append(doc)`. -/
def extendsStep (docs : List String) (doc : String) : List String :=
  match docs.getLast? with
  | none => docs ++ [doc]
  | some l => if substr l doc then docs else docs ++ [doc]

/-- A candidate source handed to `extends_`: a non-type object, or a
type together with the rest of its linearization (for the member lookup
of line 41). -/
inductive Cand : Type where
  | cObj (m : Member)
  | cCls (c : TypeState) (rest : List TypeState)
  deriving DecidableEq

/-- Lines 40-42: for a type candidate, `getattr(cand, item.__name__,
cand)` followed by `cand.__doc__` (falling back to the class's own
docstring when the member is absent); for a non-type candidate, its
`__doc__` directly. -/
def candDoc (σ : DocStore) (nm : String) : Cand → Option String
  | .cObj m => memberDoc σ m
  | .cCls c rest =>
    match classGetattr (c :: rest) nm with
    | some m => memberDoc σ m
    | none => c.doc

/-- Write `x.__doc__ = d`.  Functions and `__func__` wrappers carry
their doc in the store; for `Extend` instances the write lands in the
instance dictionary and for other data objects outside the function-doc
store, so the store is unchanged. -/
def setDocM (x : Member) (d : Option String) (σ : DocStore) : DocStore :=
  match x with
  | .func f _ => updStore σ f d
  | .boundm f _ => updStore σ f d
  | .marked _ => σ
  | .data _ => σ

/-- The indirection `getattr(thing, '__func__', thing)` of lines 37 and
137. -/
def funcIndirect (thing : Member) : Member :=
  match memberFuncAttr thing with
  | some f => f
  | none => thing

/-- The non-type branch of `extends_` (lines 36-46): resolve each
candidate's text with `unindent`, run the keep-or-drop loop, join with
blank lines and assign the result onto `thing` (the decorated item).
`none` models an uncaught exception: a missing `item.__name__`, or a
candidate whose `__doc__` is absent (line 42 passes it to `unindent`
and line 43 to the substring test, neither of which accepts `None`). -/
def extendsRun (σ : DocStore) (parents : List Cand) (thing : Member) :
    Option DocStore :=
  match memberName (funcIndirect thing) with
  | none => none
  | some nm =>
    let cands := parents ++ [Cand.cObj thing]
    let docs? := cands.foldl
      (fun acc c => acc.bind fun ds =>
        (candDoc σ nm c).map fun d => extendsStep ds (unindent d))
      (some [])
    docs?.map fun ds => setDocM thing (some (joinSep ds)) σ

/-! ### The class-docstring resolver: `cls_docstr` (lines 86-95) -/

/-- Lines 90-92: `doc = cls.__doc__; if doc: doc = unindent(doc)` -
normalize only a non-empty docstring. -/
def clsNorm (s : String) : String := if s = "" then s else unindent s

/-- One iteration of the loop at lines 89-94: normalize, then
`if doc and (not docs or doc not in docs[-1]): docs.append(doc)`. -/
def clsStep (docs : List String) (doc? : Option String) : List String :=
  match doc? with
  | none => docs
  | some s =>
    let d := clsNorm s
    if d ≠ "" then
      match docs.getLast? with
      | none => docs ++ [d]
      | some l => if substr d l then docs else docs ++ [d]
    else docs

/-- `cls_docstr` (lines 86-95): fold the docstrings of the given
classes and return `'\n\n'.join(docs[::-1])` - always a string. -/
def cls_docstr (chain : List TypeState) : String :=
  joinSep ((chain.foldl (fun ds c => clsStep ds c.doc) []).reverse)

/-- The type branch of `extends_` (lines 33-35, Python-3 path):
`thing.__doc__ = cls_docstr(reversed(parents + (thing,)))`. -/
def extendsTypeRun (parents : List TypeState) (thing : TypeState) : TypeState :=
  { thing with doc := some (cls_docstr ((parents ++ [thing]).reverse)) }

/-! ### The attribute resolver: `attr_docstr` (lines 67-84) -/

/-- The resolved raw docstring of `attr` for each class of the pruned
linearization: for the class at position `i`, `getattr(cls, attr,
None)` searches that class's own full linearization - the suffix from
`i` continued by `post`, the root states that line 126/147's filter
removed from the iterated list but that every class still reaches
through its `__mro__` - and `getattr(baseitem, '__doc__', None)`
extracts the text (lines 72-74); `none` covers a missing member, a
member without text, and an `AttributeError` swallowed by the `getattr`
default. -/
def attrDocs : List TypeState → List TypeState → String → DocStore →
    List (Option String)
  | [], _, _, _ => []
  | c :: rest, post, attr, σ =>
    (match classGetattr ((c :: rest) ++ post) attr with
      | none => none
      | some m => memberDoc σ m) :: attrDocs rest post attr σ

/-- The loop of lines 71-80 over the resolved raw docstrings, carrying
the kept list `docs` and the `last` variable: skip a missing text,
normalize, and keep exactly under `doc and (last is None or doc not in
last)`. -/
def attrFold : List (Option String) → List String → Option String → List String
  | [], docs, _ => docs
  | d? :: ds, docs, last =>
    match d? with
    | none => attrFold ds docs last
    | some s =>
      let doc := unindent s
      if doc ≠ "" ∧ (∀ l, last = some l → substr doc l = false) then
        attrFold ds (docs ++ [doc]) (some doc)
      else attrFold ds docs last

/-- The kept-blocks list computed by `attr_docstr`. -/
def attrKept (chain post : List TypeState) (attr : String) (σ : DocStore) :
    List String :=
  attrFold (attrDocs chain post attr σ) [] none

/-- `attr_docstr` (lines 67-84): `'\n\n'.join(docs[::-1]) if docs else
None`.  `chain` is the pruned mro list the source iterates over, `post`
the root states every class's `getattr` lookup still continues into. -/
def attr_docstr (chain post : List TypeState) (attr : String) (σ : DocStore) :
    Option String :=
  match attrKept chain post attr σ with
  | [] => none
  | docs => some (joinSep docs.reverse)

/-! ### Marking and finalization: `extend` (lines 117-139) and
`extend_all` (lines 141-158) -/

/-- Error message of line 138. -/
def extendErrMsg : String := "extend() expects item to have a __doc__ to extend."

/-- The non-type branch of `extend` (lines 136-139): follow the
`__func__` indirection, check `hasattr(-, '__doc__')`, and either
raise `ValueError` or wrap the item in an `Extend` marker. -/
def extendNonType (thing : Member) : Except String Member :=
  if hasDocAttrB (funcIndirect thing) then .ok (.marked thing)
  else .error extendErrMsg

/-- Helper for `dedupFirst`: drop names already seen. -/
def dedupFirstAux (seen : List String) : List String → List String
  | [] => []
  | x :: xs =>
    if x ∈ seen then dedupFirstAux seen xs
    else x :: dedupFirstAux (x :: seen) xs

/-- First-occurrence name listing over the modelled own dictionaries;
models `dir(item)` restricted to the modelled attributes (the names
`dir` additionally reports from `object` resolve to slot wrappers that
every branch of the source skips, and `dir`'s alphabetical order is not
load-bearing for any claim). -/
def dedupFirst (l : List String) : List String := dedupFirstAux [] l

/-- `dir` over a linearization, in the model. -/
def dirNames (chain : List TypeState) : List String :=
  dedupFirst (chain.foldl (fun acc c => acc ++ c.own.map Prod.fst) [])

/-- `setattr(item, k, v)`: replace the binding when `item` already has
one, otherwise add it to `item`'s own dictionary. -/
def setOwnKey (own : List (String × Member)) (k : String) (v : Member) :
    List (String × Member) :=
  if (own.find? (fun p => p.1 == k)).isSome then
    own.map fun q => if q.1 == k then (k, v) else q
  else own ++ [(k, v)]

/-- One name of the loop at lines 127-132: `v = getattr(item, k)` (the
lookup runs through `item`'s full linearization, pruned ancestors then
root states), and when `v` is an `Extend` instance, `setattr` the
wrapped member back and recompute its `__doc__` via `attr_docstr` over
the pruned list.  `none` models an uncaught `AttributeError` from the
bare `getattr` of line 128. -/
def extendTypeStep (ancs post : List TypeState) (p : TypeState × DocStore)
    (k : String) : Option (TypeState × DocStore) :=
  match classGetattr ((p.1 :: ancs) ++ post) k with
  | none => none
  | some (Member.marked t) =>
    let it' : TypeState := { doc := p.1.doc, own := setOwnKey p.1.own k t }
    some (it', setDocM t (attr_docstr (it' :: ancs) post k p.2) p.2)
  | some _ => some p

/-- The type branch of `extend` (lines 125-135): for every name of
`dir(item)` (which also reports the root's attribute names), run
`extendTypeStep`; finally recompute the class docstring from the
pruned list (Python-3 path). -/
def extendType (item : TypeState) (tail : List MroEntry) (σ : DocStore) :
    Option (TypeState × DocStore) :=
  let ancs := pruneMro tail
  let post := rootsOf tail
  let ks := dirNames ((item :: ancs) ++ post)
  let looped := ks.foldl
    (fun st k => st.bind fun p => extendTypeStep ancs post p k)
    (some (item, σ))
  looped.map fun p => ({ p.1 with doc := some (cls_docstr (p.1 :: ancs)) }, p.2)

/-- The loop body of `extend_all` (lines 148-155) for one name:
`v = getattr(cls, k)` - a lookup through the class's full
linearization, the pruned `chain` continued by the root states `post` -
and when `v` is a plain function, or otherwise exposes `__func__`,
write `attr_docstr(mro, k)` onto it; other values are skipped via the
`AttributeError` handler.  `none` models an uncaught `AttributeError`
from the bare `getattr` of line 149. -/
def extendAllStep (chain post : List TypeState) (σ : DocStore) (k : String) :
    Option DocStore :=
  match classGetattr (chain ++ post) k with
  | none => none
  | some v =>
    match v with
    | .func _ _ => some (setDocM v (attr_docstr chain post k σ) σ)
    | _ =>
      match memberFuncAttr v with
      | some w => some (setDocM w (attr_docstr chain post k σ) σ)
      | none => some σ

/-- `extend_all` (lines 141-158): run the per-name pass over `dir`
(which also reports the root's attribute names), then recompute the
class docstring from the pruned list (Python-3 path). -/
def extendAll (item : TypeState) (tail : List MroEntry) (σ : DocStore) :
    Option (TypeState × DocStore) :=
  let chain := item :: pruneMro tail
  let post := rootsOf tail
  let ks := dirNames (chain ++ post)
  (ks.foldl (fun st k => st.bind fun s => extendAllStep chain post s k)
      (some σ)).map
    fun s => ({ item with doc := some (cls_docstr chain) }, s)

/-! ### Concrete fixtures

Small concrete hierarchies and doc stores used by the closed witness
and counterexample theorems below.  `fixB` is a base class owning a
member `"m"` (function identity 1), `fixC` a derived class overriding
it (function identity 0), `fixD` a derived class inheriting it, and
`fixCm` a derived class whose override is wrapped in an `Extend`
marker. -/

/-- Base class with `m` (function 1) and docstring `"B"`. -/
def fixB : TypeState := ⟨some "B", [("m", Member.func 1 "m")]⟩

/-- Derived class overriding `m` (function 0) with docstring `"C"`. -/
def fixC : TypeState := ⟨some "C", [("m", Member.func 0 "m")]⟩

/-- Derived class with no own members. -/
def fixD : TypeState := ⟨some "D", []⟩

/-- Derived class whose override of `m` is wrapped in an `Extend`
marker. -/
def fixCm : TypeState := ⟨some "C", [("m", Member.marked (Member.func 0 "m"))]⟩

/-- Docs: function 0 (override) has `"over"`, function 1 (base) has
`"base"`. -/
def fixStore : DocStore :=
  fun n => if n = 0 then some "over" else if n = 1 then some "base" else none

/-- Docs: function 0 has the indented one-line text `"  A"`, function 1
has `"B"`. -/
def fixStoreIndent : DocStore :=
  fun n => if n = 0 then some "  A" else if n = 1 then some "B" else none

/-- Docs: function 0 has `"A"`, function 1 has `"AB"`. -/
def fixStoreAB : DocStore :=
  fun n => if n = 0 then some "A" else if n = 1 then some "AB" else none

/-- Docs: function 0 has no docstring, function 1 has `"G"`. -/
def fixStoreGap : DocStore :=
  fun n => if n = 1 then some "G" else none

/-- The empty doc store. -/
def fixStoreEmpty : DocStore := fun _ => none

/-- A class without a docstring. -/
def fixNone : TypeState := ⟨none, []⟩

/-- A class whose docstring is the empty string. -/
def fixEmptyDoc : TypeState := ⟨some "", []⟩

/-- A third, least specific class owning `m` (function 2). -/
def fixX : TypeState := ⟨some "X", [("m", Member.func 2 "m")]⟩

/-- Docs for a three-class chain, all one-line and indented:
function 0 has `"  A"`, function 1 `"  M"`, function 2 `"  X"`. -/
def fixStore3 : DocStore :=
  fun n =>
    if n = 0 then some "  A"
    else if n = 1 then some "  M"
    else if n = 2 then some "  X" else none

/-- A derived class defining `init` (function 0). -/
def fixCinit : TypeState := ⟨some "C", [("init", Member.func 0 "init")]⟩

/-- The root `object`, with its docstring and its documented slot
wrapper `init` (not a function object, no `__func__`). -/
def fixObjInit : TypeState :=
  ⟨some "object doc", [("init", Member.data (some (some "Initialize self.")))]⟩

/-- The root `object` with no modelled members. -/
def fixObjBare : TypeState := ⟨some "object doc", []⟩

/-- Docs: function 0 (the derived `init`) has `"over"`. -/
def fixStoreInit : DocStore := fun n => if n = 0 then some "over" else none

/-! ### Properties of the substring test and the join -/

theorem isPre_iff (a : List Char) : ∀ b, isPre a b = true ↔ ∃ t, b = a ++ t := by
  induction a with
  | nil => intro b; simp [isPre]
  | cons x xs ih =>
    intro b
    cases b with
    | nil => simp [isPre]
    | cons y ys =>
      simp only [isPre, Bool.and_eq_true, beq_iff_eq, ih ys, List.cons_append,
        List.cons.injEq]
      constructor
      · rintro ⟨rfl, t, rfl⟩; exact ⟨t, rfl, rfl⟩
      · rintro ⟨t, rfl, rfl⟩; exact ⟨rfl, t, rfl⟩

theorem isSub_iff (n : List Char) : ∀ h, isSub n h = true ↔ ∃ l r, h = l ++ n ++ r := by
  intro h
  induction h with
  | nil =>
    simp only [isSub, List.isEmpty_iff]
    constructor
    · rintro rfl; exact ⟨[], [], rfl⟩
    · rintro ⟨l, r, hc⟩
      exact (List.append_eq_nil.mp (List.append_eq_nil.mp hc.symm).1).2
  | cons b bs ih =>
    simp only [isSub, Bool.or_eq_true, isPre_iff, ih]
    constructor
    · rintro (⟨t, ht⟩ | ⟨l, r, hc⟩)
      · exact ⟨[], t, by simpa using ht⟩
      · exact ⟨b :: l, r, by simp [hc]⟩
    · rintro ⟨l, r, hc⟩
      cases l with
      | nil => exact Or.inl ⟨r, by simpa using hc⟩
      | cons x xs =>
        right
        refine ⟨xs, r, ?_⟩
        have := hc
        simp only [List.cons_append] at this
        exact (List.cons.injEq _ _ _ _ ▸ this).2

theorem substr_iff (n h : String) :
    substr n h = true ↔ ∃ l r, h.data = l ++ n.data ++ r := isSub_iff n.data h.data

theorem substr_refl (s : String) : substr s s = true := by
  rw [substr_iff]; exact ⟨[], [], by simp⟩

theorem substr_trans {a b c : String} (h1 : substr a b = true) (h2 : substr b c = true) :
    substr a c = true := by
  rw [substr_iff] at h1 h2 ⊢
  obtain ⟨l1, r1, e1⟩ := h1
  obtain ⟨l2, r2, e2⟩ := h2
  exact ⟨l2 ++ l1, r1 ++ r2, by simp [e2, e1]⟩

theorem substr_joinSep {b : String} {K : List String} (hb : b ∈ K) :
    substr b (joinSep K) = true := by
  rw [substr_iff]
  induction K with
  | nil => cases hb
  | cons x xs ih =>
    cases hb with
    | head =>
      cases xs with
      | nil => exact ⟨[], [], by simp [joinSep, joinSepL]⟩
      | cons y ys => exact ⟨[], '\n' :: '\n' :: joinSepL ((y :: ys).map String.data),
          by simp [joinSep, joinSepL]⟩
    | tail _ hmem =>
      obtain ⟨l, r, hr⟩ := ih hmem
      cases xs with
      | nil => cases hmem
      | cons y ys =>
        refine ⟨x.data ++ '\n' :: '\n' :: l, r, ?_⟩
        have : joinSep (y :: ys) = ⟨joinSepL ((y :: ys).map String.data)⟩ := rfl
        simp only [joinSep] at hr
        simp [joinSep, joinSepL, ← hr]

theorem joinSep_ne_empty {K : List String} (hK : K ≠ [])
    (hne : ∀ b ∈ K, b ≠ "") : joinSep K ≠ "" := by
  cases K with
  | nil => exact absurd rfl hK
  | cons x xs =>
    have hx : x ≠ "" := hne x (List.mem_cons_self _ _)
    cases xs with
    | nil =>
      simpa [joinSep, joinSepL] using hx
    | cons y ys =>
      intro hcon
      have : (joinSep (x :: y :: ys)).data = [] := by rw [hcon]
      simp only [joinSep, joinSepL, List.map_cons] at this
      rcases List.append_eq_nil.mp this with ⟨hx0, _⟩
      exact hx (String.ext (by rw [hx0]))

/-! ### Claim C1 -/

/-- Claim C1 counterexample: in the non-type branch of `extends_`, the
new text `"AB"` is not a substring of the most recently kept block
`"A"`, so the claim demands that it be appended - but the source's test
is `docs[-1] not in doc` (the reversed direction), so the new block is
dropped: the step keeps only `["A"]`, and the full resolver run leaves
the decorated function with docstring `"A"` rather than `"A\n\nAB"`. -/
theorem C1_counterexample :
    extendsStep ["A"] "AB" = ["A"] ∧ substr "AB" "A" = false ∧
    (extendsRun fixStoreAB [Cand.cObj (Member.func 0 "f")]
      (Member.func 1 "g")).map (fun σ => σ 1) = some (some "A") ∧
    ("A" : String) ≠ "A\n\nAB" := by decide

/-- Claim C1 (amended): the non-type branch of `extends_` appends a new
block exactly when the kept list is empty or the MOST RECENTLY KEPT
block is not a substring of the NEW text; `cls_docstr` appends exactly
when the new normalized text is non-empty and (the kept list is empty
or the new text is not a substring of the most recently kept block). -/
theorem C1_amended (docs : List String) (d s : String) :
    (docs = [] → extendsStep docs d = [d] ∧
      ((clsStep docs (some s) = [clsNorm s]) ↔ clsNorm s ≠ "")) ∧
    (∀ l, docs.getLast? = some l →
      (((extendsStep docs d = docs ++ [d]) ↔ substr l d = false) ∧
       ((extendsStep docs d = docs) ↔ substr l d = true)) ∧
      (((clsStep docs (some s) = docs ++ [clsNorm s]) ↔
          (clsNorm s ≠ "" ∧ substr (clsNorm s) l = false)) ∧
       ((clsStep docs (some s) = docs) ↔
          (clsNorm s = "" ∨ substr (clsNorm s) l = true)))) ∧
    clsStep docs none = docs := by
  have hlen : ∀ (L : List String) (x : String), L ≠ L ++ [x] := by
    intro L x h
    have h2 := congrArg List.length h
    simp at h2
  refine ⟨?_, ?_, rfl⟩
  · rintro rfl
    refine ⟨rfl, ?_⟩
    by_cases hu : clsNorm s = "" <;> simp [clsStep, hu]
  · intro l hl
    have hd : docs ≠ docs ++ [d] := hlen docs d
    have hn : docs ≠ docs ++ [clsNorm s] := hlen docs (clsNorm s)
    constructor
    · unfold extendsStep
      rw [hl]
      by_cases hsub : substr l d = true
      · simp [hsub, hd]
      · simp only [Bool.not_eq_true] at hsub
        simp [hsub, hd]
    · unfold clsStep
      rw [hl]
      by_cases hu : clsNorm s = ""
      · simp [hu, hn]
      · by_cases hsub : substr (clsNorm s) l = true
        · simp [hu, hsub, hn]
        · simp only [Bool.not_eq_true] at hsub
          simp [hu, hsub, hn]

/-- Claim C1 witness: a non-substring new block after a kept block is
appended by both step functions. -/
theorem C1_amended_witness :
    extendsStep ["B"] "C" = ["B", "C"] ∧ clsStep ["B"] (some "C") = ["B", "C"] := by
  have h := (C1_amended ["B"] "C" "C").2.1 "B" rfl
  have hc : clsNorm "C" = "C" := by decide
  constructor
  · exact h.1.1.mpr (by decide)
  · have h2 := h.2.1.mpr (by rw [hc]; exact ⟨by decide, by decide⟩)
    rw [hc] at h2
    exact h2

/-! ### Claim C4 -/

/-- Claim C4: the non-type branch of `extend` raises its `ValueError`
exactly when the item, after the `__func__` indirection, lacks a
`__doc__` attribute; it raises nothing else, otherwise returns the
marker; in particular a plain data attribute with no `__doc__` is
rejected at mark time. -/
theorem C4_mark_time_error (m : Member) :
    ((extendNonType m = Except.error extendErrMsg) ↔
      hasDocAttrB (funcIndirect m) = false) ∧
    (∀ e, extendNonType m = Except.error e → e = extendErrMsg) ∧
    (hasDocAttrB (funcIndirect m) = true →
      extendNonType m = Except.ok (Member.marked m)) ∧
    extendNonType (Member.data none) = Except.error extendErrMsg := by
  unfold extendNonType
  by_cases h : hasDocAttrB (funcIndirect m) <;> simp [h] <;> decide

/-- Claim C4 witness: a plain function has `__doc__`, so marking it
succeeds and yields the wrapper. -/
theorem C4_mark_time_error_witness :
    extendNonType (Member.func 0 "f") = Except.ok (Member.marked (Member.func 0 "f")) :=
  (C4_mark_time_error (Member.func 0 "f")).2.2.1 (by decide)

/-! ### Claim C6 -/

/-- Claim C6 (code bug): decorating a class with `extend` never unwraps
an `Extend`-marked member and never recomputes its documentation,
because `getattr(item, k)` invokes `Extend.__get__`, which hands back
the plain wrapped function, so `isinstance(v, Extend)` is never true.
Concretely: `fixCm` owns `"m"` wrapped in a marker over function 0
(doc `"over"`) and inherits `"m"` from `fixB` (doc `"base"`); after
`extend`, the marker is still in the dictionary and function 0 still
has doc `"over"`, although the attribute resolver - which the source's
own docstring promises to apply - yields `"base\n\nover"`. -/
theorem C6_marker_survives_extend :
    (extendType fixCm [MroEntry.cls fixB, MroEntry.root fixObjBare]
        fixStore).map (fun p => p.1.own) =
      some [("m", Member.marked (Member.func 0 "m"))] ∧
    (extendType fixCm [MroEntry.cls fixB, MroEntry.root fixObjBare]
        fixStore).map (fun p => p.2 0) = some (some "over") ∧
    attr_docstr [fixCm, fixB] [fixObjBare] "m" fixStore = some "base\n\nover" ∧
    classGetattr [fixCm, fixB] "m" = some (Member.func 0 "m") := by decide

/-! ### Claim C7 -/

/-- Claim C7 counterexample: attribute access on the wrapper does NOT
always return the corresponding attribute of the wrapped member -
`__doc__` resolves on the `Extend` class itself (its own class
docstring) before `__getattr__` could forward, while the wrapped
function's `__doc__` is `None` here. -/
theorem C7_counterexample :
    objGetattr fixStoreEmpty (Member.marked (Member.func 0 "f")) "__doc__" =
      some (Val.vStr extendClassDocstr) ∧
    objGetattr fixStoreEmpty (Member.func 0 "f") "__doc__" = some Val.vNone ∧
    Val.vStr extendClassDocstr ≠ Val.vNone := by decide

/-- Claim C7 (amended): the marker forwards attribute access for every
name that does not resolve on the wrapper itself (its `thing` slot and
the attributes of the `Extend` class), and forwards descriptor binding
and invocation unconditionally; consequently class-level attribute
access straight through a marker behaves as if the wrapped member were
stored. -/
theorem C7_amended (σ : DocStore) (t : Member) (a : String)
    (h : a ∉ extendShadowed) :
    objGetattr σ (Member.marked t) a = objGetattr σ t a ∧
    dunderGet (Member.marked t) = dunderGet t ∧
    (∀ impl args, callMember impl (Member.marked t) args = callMember impl t args) ∧
    (∀ chain k, rawLookup chain k = some (Member.marked t) →
      classGetattr chain k = dunderGet t) := by
  have ht : a ≠ "thing" := fun hc => h (by rw [hc]; decide)
  have hdoc : a ≠ "__doc__" := fun hc => h (by rw [hc]; decide)
  refine ⟨?_, rfl, fun impl args => rfl, ?_⟩
  · simp only [objGetattr, if_neg ht, if_neg hdoc, if_neg h]
  · intro chain k hr
    unfold classGetattr
    rw [hr]
    rfl

/-- Claim C7 witness: `__name__` is not shadowed by the wrapper, so
access through the marker equals access on the wrapped function. -/
theorem C7_amended_witness :
    objGetattr fixStoreEmpty (Member.marked (Member.func 0 "f")) "__name__" =
      objGetattr fixStoreEmpty (Member.func 0 "f") "__name__" :=
  (C7_amended fixStoreEmpty (Member.func 0 "f") "__name__" (by decide)).1

/-! ### Claim C8 -/

/-- Raw MRO lookup only reads the own dictionaries: lists with the same
own dictionaries look up alike. -/
theorem rawLookup_ownEq :
    ∀ (l l' : List TypeState), l.map TypeState.own = l'.map TypeState.own →
      ∀ k, rawLookup l k = rawLookup l' k := by
  intro l
  induction l with
  | nil =>
    intro l' h k
    cases l' with
    | nil => rfl
    | cons c' cs' => simp at h
  | cons c cs ih =>
    intro l' h k
    cases l' with
    | nil => simp at h
    | cons c' cs' =>
      simp only [List.map_cons, List.cons.injEq] at h
      obtain ⟨h1, h2⟩ := h
      simp only [rawLookup]
      rw [show lookupOwn c.own k = lookupOwn c'.own k from by rw [h1]]
      cases hc : lookupOwn c'.own k with
      | some m => rfl
      | none => exact ih cs' h2 k

/-- Class attribute access is insensitive to the docstrings of the
lookup tail. -/
theorem classGetattr_post {post post' : List TypeState}
    (hpost : post.map TypeState.own = post'.map TypeState.own) :
    ∀ (pre : List TypeState) (k : String),
      classGetattr (pre ++ post) k = classGetattr (pre ++ post') k := by
  intro pre k
  unfold classGetattr
  rw [rawLookup_ownEq (pre ++ post) (pre ++ post') (by simp [hpost]) k]

/-- The resolved doc list is insensitive to the docstrings of the
lookup tail (it reads members through `getattr`, never the tail
classes' own `__doc__`). -/
theorem attrDocs_post {post post' : List TypeState}
    (hpost : post.map TypeState.own = post'.map TypeState.own) :
    ∀ (chain : List TypeState) (attr : String) (σ : DocStore),
      attrDocs chain post attr σ = attrDocs chain post' attr σ := by
  intro chain
  induction chain with
  | nil => intro attr σ; rfl
  | cons c rest ih =>
    intro attr σ
    show (match classGetattr ((c :: rest) ++ post) attr with
      | none => none
      | some m => memberDoc σ m) :: attrDocs rest post attr σ = _
    rw [classGetattr_post hpost (c :: rest) attr, ih attr σ]
    rfl

/-- `attr_docstr` is insensitive to the docstrings of the lookup
tail. -/
theorem attr_docstr_post {post post' : List TypeState}
    (hpost : post.map TypeState.own = post'.map TypeState.own) :
    ∀ (chain : List TypeState) (attr : String) (σ : DocStore),
      attr_docstr chain post attr σ = attr_docstr chain post' attr σ := by
  intro chain attr σ
  unfold attr_docstr attrKept
  rw [attrDocs_post hpost chain attr σ]

/-- The name-collecting fold reads only own dictionaries. -/
theorem dirFold_ownEq :
    ∀ (l l' : List TypeState), l.map TypeState.own = l'.map TypeState.own →
      ∀ acc : List String,
        l.foldl (fun acc c => acc ++ c.own.map Prod.fst) acc =
        l'.foldl (fun acc c => acc ++ c.own.map Prod.fst) acc := by
  intro l
  induction l with
  | nil =>
    intro l' h acc
    cases l' with
    | nil => rfl
    | cons => simp at h
  | cons c cs ih =>
    intro l' h acc
    cases l' with
    | nil => simp at h
    | cons c' cs' =>
      simp only [List.map_cons, List.cons.injEq] at h
      rw [List.foldl_cons, List.foldl_cons, h.1]
      exact ih cs' h.2 _

/-- `dir` is insensitive to the docstrings of the lookup tail. -/
theorem dirNames_post {post post' : List TypeState}
    (hpost : post.map TypeState.own = post'.map TypeState.own) :
    ∀ pre : List TypeState, dirNames (pre ++ post) = dirNames (pre ++ post') := by
  intro pre
  unfold dirNames
  rw [dirFold_ownEq (pre ++ post) (pre ++ post') (by simp [hpost]) []]

/-- The `extend_all` loop body is insensitive to the docstrings of the
lookup tail. -/
theorem extendAllStep_post {post post' : List TypeState}
    (hpost : post.map TypeState.own = post'.map TypeState.own) :
    ∀ (chain : List TypeState) (σ : DocStore) (k : String),
      extendAllStep chain post σ k = extendAllStep chain post' σ k := by
  intro chain σ k
  unfold extendAllStep
  simp only [classGetattr_post hpost, attr_docstr_post hpost]

/-- The `extend` loop body is insensitive to the docstrings of the
lookup tail. -/
theorem extendTypeStep_post {post post' : List TypeState}
    (hpost : post.map TypeState.own = post'.map TypeState.own) :
    ∀ (ancs : List TypeState) (p : TypeState × DocStore) (k : String),
      extendTypeStep ancs post p k = extendTypeStep ancs post' p k := by
  intro ancs p k
  unfold extendTypeStep
  simp only [classGetattr_post hpost, attr_docstr_post hpost]

/-- Claim C8 counterexample: the root's documentation CAN contribute to
a resolved member docstring.  `fixCinit` defines `init` (doc `"over"`)
over a base `fixD` that does not; line 72's `getattr(cls, attr, None)`
on the base searches its full MRO and reaches `object`'s documented
slot wrapper, so the resolved docstring becomes
`"Initialize self.\n\nover"` - and a full `extend_all` writes exactly
that onto the derived function.  With the root's member documentation
removed, the result is `"over"`. -/
theorem C8_counterexample :
    attr_docstr [fixCinit, fixD] [fixObjInit] "init" fixStoreInit =
      some "Initialize self.\n\nover" ∧
    attr_docstr [fixCinit, fixD] [fixObjBare] "init" fixStoreInit =
      some "over" ∧
    (extendAll fixCinit [MroEntry.cls fixD, MroEntry.root fixObjInit]
        fixStoreInit).map (fun p => p.2 0) =
      some (some "Initialize self.\n\nover") ∧
    substr "Initialize self." "over" = false := by decide

/-- Claim C8 (amended): `extend` and `extend_all` do hand the resolvers
the linearization with the root excluded, and the root's own CLASS
docstring never contributes to any result - replacing the root's
docstring (keeping its members) changes nothing.  The root's MEMBER
docstrings, reached by each class's full-MRO `getattr`, can still
contribute (see the counterexample). -/
theorem C8_amended (item : TypeState) (l1 l2 : List MroEntry)
    (rc rc' : TypeState) (σ : DocStore) (hown : rc.own = rc'.own) :
    pruneMro (l1 ++ MroEntry.root rc :: l2) = pruneMro (l1 ++ l2) ∧
    extendType item (l1 ++ MroEntry.root rc :: l2) σ =
      extendType item (l1 ++ MroEntry.root rc' :: l2) σ ∧
    extendAll item (l1 ++ MroEntry.root rc :: l2) σ =
      extendAll item (l1 ++ MroEntry.root rc' :: l2) σ := by
  have hprune : pruneMro (l1 ++ MroEntry.root rc :: l2) =
      pruneMro (l1 ++ MroEntry.root rc' :: l2) := by
    simp [pruneMro, List.filterMap_append, List.filterMap_cons]
  have hprune2 : pruneMro (l1 ++ MroEntry.root rc :: l2) = pruneMro (l1 ++ l2) := by
    simp [pruneMro, List.filterMap_append, List.filterMap_cons]
  have hpost : (rootsOf (l1 ++ MroEntry.root rc :: l2)).map TypeState.own =
      (rootsOf (l1 ++ MroEntry.root rc' :: l2)).map TypeState.own := by
    simp [rootsOf, List.filterMap_append, List.filterMap_cons, hown]
  refine ⟨hprune2, ?_, ?_⟩
  · simp only [extendType]
    simp only [hprune, dirNames_post hpost, extendTypeStep_post hpost]
  · simp only [extendAll]
    simp only [hprune, dirNames_post hpost, extendAllStep_post hpost]

/-- Claim C8 witness: two roots with the same (empty) member dictionary
but different docstrings yield identical `extend_all` results. -/
theorem C8_amended_witness :
    extendAll fixD [MroEntry.root fixObjBare] fixStore =
      extendAll fixD [MroEntry.root fixNone] fixStore :=
  (C8_amended fixD [] [] fixObjBare fixNone fixStore rfl).2.2

/-! ### Claim C2 -/

/-- The source's running `last` variable is always the most recently
kept block: the fold with `(docs, last)` state equals a fold whose keep
condition consults `getLast?` of the kept list itself. -/
theorem attrFold_eq_foldl (ds : List (Option String)) :
    ∀ docs : List String,
      attrFold ds docs docs.getLast? =
        ds.foldl (fun ks d? =>
          match d? with
          | none => ks
          | some s =>
            let u := unindent s
            if u ≠ "" ∧ (∀ l, ks.getLast? = some l → substr u l = false) then ks ++ [u]
            else ks) docs := by
  induction ds with
  | nil => intro docs; rfl
  | cons d? ds ih =>
    intro docs
    cases d? with
    | none =>
      simp only [attrFold, List.foldl_cons]
      exact ih docs
    | some s =>
      simp only [attrFold, List.foldl_cons]
      by_cases hc : unindent s ≠ "" ∧
          (∀ l, docs.getLast? = some l → substr (unindent s) l = false)
      · rw [if_pos hc, if_pos hc]
        have hlast : (docs ++ [unindent s]).getLast? = some (unindent s) :=
          List.getLast?_concat _
        rw [← hlast]
        exact ih (docs ++ [unindent s])
      · rw [if_neg hc, if_neg hc]
        exact ih docs

/-- Claim C2: `attr_docstr` keeps a block exactly when it is non-empty
and not a substring of the immediately previously kept block (the last
element of the kept list so far), collects most-specific-first,
reverses, joins with a blank line, and returns `None` when nothing was
kept. -/
theorem C2_attr_docstr_resolved (chain post : List TypeState) (attr : String)
    (σ : DocStore) :
    attr_docstr chain post attr σ =
      (let K := (attrDocs chain post attr σ).foldl (fun ks d? =>
          match d? with
          | none => ks
          | some s =>
            let u := unindent s
            if u ≠ "" ∧ (∀ l, ks.getLast? = some l → substr u l = false) then ks ++ [u]
            else ks) [];
        if K = [] then none else some (joinSep K.reverse)) := by
  have h := attrFold_eq_foldl (attrDocs chain post attr σ) []
  rw [List.getLast?_nil] at h
  unfold attr_docstr attrKept
  rw [h]
  cases hK : (attrDocs chain post attr σ).foldl _ [] with
  | nil => simp
  | cons x xs => simp

/-! ### Claim C3 -/

/-- The candidate fold of `extends_` succeeds whenever every
candidate's resolved text is present. -/
theorem extendsFoldl_isSome (σ : DocStore) (nm : String) :
    ∀ (cs : List Cand) (acc : List String),
      (∀ c ∈ cs, (candDoc σ nm c).isSome = true) →
      ∃ ds, cs.foldl
          (fun acc c => acc.bind fun ds =>
            (candDoc σ nm c).map fun d => extendsStep ds (unindent d))
          (some acc) = some ds := by
  intro cs
  induction cs with
  | nil => intro acc _; exact ⟨acc, rfl⟩
  | cons c cs ih =>
    intro acc hall
    obtain ⟨d, hd⟩ := Option.isSome_iff_exists.mp (hall c (List.mem_cons_self _ _))
    have hstep : (some acc).bind
        (fun ds => (candDoc σ nm c).map fun d => extendsStep ds (unindent d)) =
        some (extendsStep acc (unindent d)) := by
      simp [hd]
    rw [List.foldl_cons, hstep]
    exact ih _ (fun c' hc' => hall c' (List.mem_cons_of_mem _ hc'))

/-- Claim C3 counterexample: a candidate with absent documentation is
not skipped - the whole resolver run fails (the source hands `None` to
`unindent` and to the substring test), so no string is produced at all.
Function 0 (the parent) has no docstring; function 1 (the decorated
one) does. -/
theorem C3_counterexample :
    (extendsRun fixStoreGap [Cand.cObj (Member.func 0 "f")]
      (Member.func 1 "g")).isSome = false ∧
    fixStoreGap 0 = none ∧ fixStoreGap 1 = some "G" := by decide

/-- Claim C3 (amended): when every source's documentation text is
present, the non-type branch of `extends_` always succeeds, produces a
string, and assigns it onto the decorated item - and onto nothing
else. -/
theorem C3_amended (σ : DocStore) (parents : List Cand) (tfid : Nat)
    (tname : String)
    (hp : ∀ c ∈ parents, (candDoc σ tname c).isSome = true)
    (ht : (σ tfid).isSome = true) :
    ∃ σ' : DocStore,
      extendsRun σ parents (Member.func tfid tname) = some σ' ∧
      (∃ s, σ' tfid = some s) ∧ (∀ g, g ≠ tfid → σ' g = σ g) := by
  have hall : ∀ c ∈ parents ++ [Cand.cObj (Member.func tfid tname)],
      (candDoc σ tname c).isSome = true := by
    intro c hc
    rcases List.mem_append.mp hc with h1 | h1
    · exact hp c h1
    · rw [List.mem_singleton.mp h1]
      simpa [candDoc, memberDoc] using ht
  obtain ⟨ds, hds⟩ := extendsFoldl_isSome σ tname
    (parents ++ [Cand.cObj (Member.func tfid tname)]) [] hall
  refine ⟨updStore σ tfid (some (joinSep ds)), ?_,
    ⟨joinSep ds, by simp [updStore]⟩, ?_⟩
  · show (List.foldl
        (fun acc c => acc.bind fun ds =>
          Option.map (fun d => extendsStep ds (unindent d)) (candDoc σ tname c))
        (some []) (parents ++ [Cand.cObj (Member.func tfid tname)])).map
          (fun ds => setDocM (Member.func tfid tname) (some (joinSep ds)) σ) =
      some (updStore σ tfid (some (joinSep ds)))
    rw [hds]
    rfl
  · intro g hg
    simp [updStore, hg]

/-- Claim C3 witness: with both docstrings present the resolver
succeeds and writes only the decorated function's doc. -/
theorem C3_amended_witness :
    ∃ σ' : DocStore,
      extendsRun fixStoreAB [Cand.cObj (Member.func 0 "f")]
        (Member.func 1 "g") = some σ' ∧
      (∃ s, σ' 1 = some s) ∧ (∀ g, g ≠ 1 → σ' g = fixStoreAB g) :=
  C3_amended fixStoreAB [Cand.cObj (Member.func 0 "f")] 1 "g"
    (by decide) (by decide)

/-! ### Claim C9 -/

/-- A successful raw MRO lookup pinpoints the class that owns the
member. -/
theorem rawLookup_exists_own :
    ∀ (l : List TypeState) (k : String) (m : Member),
      rawLookup l k = some m → ∃ a ∈ l, lookupOwn a.own k = some m := by
  intro l
  induction l with
  | nil => intro k m h; exact absurd h (by simp [rawLookup])
  | cons c cs ih =>
    intro k m h
    unfold rawLookup at h
    cases hc : lookupOwn c.own k with
    | some m0 =>
      rw [hc] at h
      exact ⟨c, List.mem_cons_self _ _, hc.trans h⟩
    | none =>
      rw [hc] at h
      obtain ⟨a, ha, hm⟩ := ih k m h
      exact ⟨a, List.mem_cons_of_mem _ ha, hm⟩

/-- A hit in the front part of a lookup chain is a hit in the whole
chain. -/
theorem rawLookup_append_some :
    ∀ (l l2 : List TypeState) (k : String) (m : Member),
      rawLookup l k = some m → rawLookup (l ++ l2) k = some m := by
  intro l
  induction l with
  | nil => intro l2 k m h; exact absurd h (by simp [rawLookup])
  | cons c cs ih =>
    intro l2 k m h
    rw [List.cons_append]
    simp only [rawLookup] at h ⊢
    cases hc : lookupOwn c.own k with
    | some m0 => rw [hc] at h; exact h
    | none => rw [hc] at h; exact ih l2 k m h

/-- Claim C9: when the decorated class does not define name `k` itself
but some ancestor's own dictionary provides it as a plain function (or
a `__func__`-bearing wrapper), the `extend_all` pass for `k` writes the
recomputed chain documentation onto that ancestor-owned function
object - so `extend_all` mutates members belonging to ancestor
classes. -/
theorem C9_extend_all_mutates_ancestors (c0 : TypeState)
    (rest post : List TypeState) (k : String) (fid : Nat) (nm : String)
    (σ : DocStore)
    (hself : lookupOwn c0.own k = none)
    (hanc : rawLookup rest k = some (Member.func fid nm) ∨
            rawLookup rest k = some (Member.boundm fid nm)) :
    extendAllStep (c0 :: rest) post σ k =
      some (updStore σ fid (attr_docstr (c0 :: rest) post k σ)) ∧
    ∃ a ∈ rest, lookupOwn a.own k = some (Member.func fid nm) ∨
                lookupOwn a.own k = some (Member.boundm fid nm) := by
  have hraw : rawLookup ((c0 :: rest) ++ post) k = rawLookup (rest ++ post) k := by
    rw [List.cons_append]
    simp only [rawLookup, hself]
  constructor
  · unfold extendAllStep classGetattr
    rw [hraw]
    rcases hanc with h | h <;> rw [rawLookup_append_some rest post k _ h] <;> rfl
  · rcases hanc with h | h
    · obtain ⟨a, ha, hm⟩ := rawLookup_exists_own rest k _ h
      exact ⟨a, ha, Or.inl hm⟩
    · obtain ⟨a, ha, hm⟩ := rawLookup_exists_own rest k _ h
      exact ⟨a, ha, Or.inr hm⟩

/-- Claim C9 witness: `fixD` inherits `m` (function 1, owned by
`fixB`); the step writes the recomputed doc onto function 1, and a full
`extend_all` run indeed mutates the base class's function. -/
theorem C9_extend_all_mutates_ancestors_witness :
    (extendAllStep [fixD, fixB] [fixObjBare] fixStore "m" =
      some (updStore fixStore 1
        (attr_docstr [fixD, fixB] [fixObjBare] "m" fixStore)) ∧
     ∃ a ∈ [fixB], lookupOwn a.own "m" = some (Member.func 1 "m") ∨
                   lookupOwn a.own "m" = some (Member.boundm 1 "m")) ∧
    (extendAll fixD [MroEntry.cls fixB, MroEntry.root fixObjBare] fixStore).map
      (fun p => p.2 1) = some (some "base") :=
  ⟨C9_extend_all_mutates_ancestors fixD [fixB] [fixObjBare] "m" 1 "m" fixStore
      (by decide) (Or.inl (by decide)),
   by decide⟩

/-! ### Claim C10 -/

/-- With no class docstring anywhere, the `cls_docstr` fold keeps
nothing. -/
theorem clsFold_empty :
    ∀ (chain : List TypeState),
      (∀ c ∈ chain, c.doc = none ∨ c.doc = some "") →
      chain.foldl (fun ds c => clsStep ds c.doc) [] = [] := by
  intro chain
  induction chain with
  | nil => intro _; rfl
  | cons c cs ih =>
    intro h
    have hstep : clsStep [] c.doc = [] := by
      rcases h c (List.mem_cons_self _ _) with h1 | h1 <;> rw [h1] <;> decide
    rw [List.foldl_cons, hstep]
    exact ih (fun c' hc' => h c' (List.mem_cons_of_mem _ hc'))

/-- The `attr_docstr` fold keeps nothing when every resolved doc is
absent. -/
theorem attrFold_allNone :
    ∀ (ds : List (Option String)) (docs : List String) (last : Option String),
      (∀ d? ∈ ds, d? = none) → attrFold ds docs last = docs := by
  intro ds
  induction ds with
  | nil => intro docs last _; rfl
  | cons d? ds ih =>
    intro docs last h
    rw [h d? (List.mem_cons_self _ _)]
    exact ih docs last (fun d hd => h d (List.mem_cons_of_mem _ hd))

/-- Claim C10: with no documentation anywhere in the chain,
`cls_docstr` returns the empty string (and `extend_all` therefore sets
the class's doc field to `""`), whereas `attr_docstr` returns `None`
(and the `extend_all` pass therefore sets the member function's doc
field to `None`). -/
theorem C10_no_docs_representation (chain post : List TypeState)
    (attr : String) (σ : DocStore) :
    ((∀ c ∈ chain, c.doc = none ∨ c.doc = some "") → cls_docstr chain = "") ∧
    ((∀ d? ∈ attrDocs chain post attr σ, d? = none) →
      attr_docstr chain post attr σ = none) ∧
    (∀ (item : TypeState) (tail : List MroEntry) (σ0 : DocStore)
        (res : TypeState × DocStore),
      (∀ c ∈ item :: pruneMro tail, c.doc = none ∨ c.doc = some "") →
      extendAll item tail σ0 = some res → res.1.doc = some "") ∧
    (∀ (c0 : TypeState) (rest : List TypeState) (fid : Nat) (nm : String)
        (σ1 σ1' : DocStore),
      rawLookup ((c0 :: rest) ++ post) attr = some (Member.func fid nm) →
      (∀ d? ∈ attrDocs (c0 :: rest) post attr σ1, d? = none) →
      extendAllStep (c0 :: rest) post σ1 attr = some σ1' → σ1' fid = none) := by
  refine ⟨?_, ?_, ?_, ?_⟩
  · intro h
    unfold cls_docstr
    rw [clsFold_empty chain h]
    rfl
  · intro h
    unfold attr_docstr attrKept
    rw [attrFold_allNone _ [] none h]
  · intro item tail σ0 res hdocs hres
    simp only [extendAll] at hres
    cases hf : List.foldl
        (fun st k => st.bind fun s =>
          extendAllStep (item :: pruneMro tail) (rootsOf tail) s k)
        (some σ0) (dirNames ((item :: pruneMro tail) ++ rootsOf tail)) with
    | none => rw [hf] at hres; exact absurd hres (by simp)
    | some s =>
      rw [hf] at hres
      have h2 := Option.some.inj hres
      have h3 : cls_docstr (item :: pruneMro tail) = "" := by
        unfold cls_docstr
        rw [clsFold_empty _ hdocs]
        rfl
      subst h2
      simp [h3]
  · intro c0 rest fid nm σ1 σ1' hr hnone hstep
    have hres : attr_docstr (c0 :: rest) post attr σ1 = none := by
      unfold attr_docstr attrKept
      rw [attrFold_allNone _ [] none hnone]
    unfold extendAllStep classGetattr at hstep
    rw [hr] at hstep
    have h2 := Option.some.inj hstep
    rw [← h2]
    simp [setDocM, updStore, hres]

/-- Claim C10 witness: a chain of undocumented classes yields the empty
string for the class docstring, and an undocumented member yields
`None`. -/
theorem C10_no_docs_representation_witness :
    cls_docstr [fixNone, fixEmptyDoc] = "" ∧
    attr_docstr [fixD] [fixObjBare] "m" fixStoreEmpty = none :=
  ⟨(C10_no_docs_representation [fixNone, fixEmptyDoc] [] "m" fixStoreEmpty).1
      (by decide),
   (C10_no_docs_representation [fixD] [fixObjBare] "m" fixStoreEmpty).2.1
      (by decide)⟩

/-! ### Claim C5 -/

/-- The kept-blocks fold only ever appends. -/
theorem attrFold_prefix :
    ∀ (ds : List (Option String)) (docs : List String) (last : Option String),
      ∃ ext, attrFold ds docs last = docs ++ ext := by
  intro ds
  induction ds with
  | nil => intro docs last; exact ⟨[], by simp [attrFold]⟩
  | cons d? ds ih =>
    intro docs last
    cases d? with
    | none => exact ih docs last
    | some s =>
      have heq : attrFold (some s :: ds) docs last =
          if unindent s ≠ "" ∧ (∀ l, last = some l → substr (unindent s) l = false) then
            attrFold ds (docs ++ [unindent s]) (some (unindent s))
          else attrFold ds docs last := rfl
      by_cases hc : unindent s ≠ "" ∧
          (∀ l, last = some l → substr (unindent s) l = false)
      · obtain ⟨ext, hext⟩ := ih (docs ++ [unindent s]) (some (unindent s))
        exact ⟨unindent s :: ext, by rw [heq, if_pos hc, hext]; simp⟩
      · obtain ⟨ext, hext⟩ := ih docs last
        exact ⟨ext, by rw [heq, if_neg hc, hext]⟩

/-- Every block the fold keeps is non-empty (the keep condition demands
it). -/
theorem attrFold_nonempty :
    ∀ (ds : List (Option String)) (docs : List String) (last : Option String),
      (∀ b ∈ docs, b ≠ "") → ∀ b ∈ attrFold ds docs last, b ≠ "" := by
  intro ds
  induction ds with
  | nil => intro docs last h; exact h
  | cons d? ds ih =>
    intro docs last h
    cases d? with
    | none => exact ih docs last h
    | some s =>
      have heq : attrFold (some s :: ds) docs last =
          if unindent s ≠ "" ∧ (∀ l, last = some l → substr (unindent s) l = false) then
            attrFold ds (docs ++ [unindent s]) (some (unindent s))
          else attrFold ds docs last := rfl
      rw [heq]
      by_cases hc : unindent s ≠ "" ∧
          (∀ l, last = some l → substr (unindent s) l = false)
      · rw [if_pos hc]
        refine ih _ _ ?_
        intro b hb
        rcases List.mem_append.mp hb with h1 | h1
        · exact h b h1
        · rw [List.mem_singleton.mp h1]; exact hc.1
      · rw [if_neg hc]
        exact ih docs last h

/-- Every examined text whose normalization is non-empty is a substring
of some kept block, provided the running `last` is itself a kept
block. -/
theorem attrFold_examined :
    ∀ (ds : List (Option String)) (docs : List String) (last : Option String),
      (∀ l, last = some l → l ∈ docs) →
      ∀ s, some s ∈ ds → unindent s ≠ "" →
        ∃ b ∈ attrFold ds docs last, substr (unindent s) b = true := by
  intro ds
  induction ds with
  | nil => intro docs last _ s hs; cases hs
  | cons d? ds ih =>
    intro docs last hinv s hs hne
    cases d? with
    | none =>
      have hmem : some s ∈ ds := by
        rcases List.mem_cons.mp hs with h | h
        · exact absurd h (by simp)
        · exact h
      exact ih docs last hinv s hmem hne
    | some s0 =>
      have heq : attrFold (some s0 :: ds) docs last =
          if unindent s0 ≠ "" ∧ (∀ l, last = some l → substr (unindent s0) l = false) then
            attrFold ds (docs ++ [unindent s0]) (some (unindent s0))
          else attrFold ds docs last := rfl
      rw [heq]
      by_cases hc : unindent s0 ≠ "" ∧
          (∀ l, last = some l → substr (unindent s0) l = false)
      · rw [if_pos hc]
        rcases List.mem_cons.mp hs with h | h
        · have hss : s = s0 := Option.some.inj h
          subst hss
          obtain ⟨ext, hext⟩ :=
            attrFold_prefix ds (docs ++ [unindent s]) (some (unindent s))
          refine ⟨unindent s, ?_, substr_refl _⟩
          rw [hext]
          simp
        · refine ih (docs ++ [unindent s0]) (some (unindent s0)) ?_ s h hne
          intro l hl
          rw [← Option.some.inj hl]
          simp
      · rw [if_neg hc]
        rcases List.mem_cons.mp hs with h | h
        · have hss : s = s0 := Option.some.inj h
          subst hss
          have hB : ¬(∀ l, last = some l → substr (unindent s) l = false) :=
            fun hB => hc ⟨hne, hB⟩
          push_neg at hB
          obtain ⟨l, hl, hsub⟩ := hB
          have hsub2 : substr (unindent s) l = true := by
            cases hx : substr (unindent s) l
            · exact absurd hx hsub
            · rfl
          obtain ⟨ext, hext⟩ := attrFold_prefix ds docs last
          refine ⟨l, ?_, hsub2⟩
          rw [hext]
          exact List.mem_append_left _ (hinv l hl)
        · exact ih docs last hinv s h hne

/-- Once `last` is a block `r` of which every remaining text is (after
normalization) empty or a substring, the fold keeps nothing further. -/
theorem attrFold_absorb :
    ∀ (ds : List (Option String)) (docs : List String) (r : String),
      (∀ d? ∈ ds, ∀ s, d? = some s →
        unindent s = "" ∨ substr (unindent s) r = true) →
      attrFold ds docs (some r) = docs := by
  intro ds
  induction ds with
  | nil => intro docs r _; rfl
  | cons d? ds ih =>
    intro docs r h
    cases d? with
    | none => exact ih docs r (fun d hd => h d (List.mem_cons_of_mem _ hd))
    | some s =>
      have hs := h (some s) (List.mem_cons_self _ _) s rfl
      have hc : ¬(unindent s ≠ "" ∧
          (∀ l, (some r : Option String) = some l → substr (unindent s) l = false)) := by
        rintro ⟨hne, hall⟩
        rcases hs with h1 | h1
        · exact hne h1
        · have h2 := hall r rfl
          rw [h1] at h2
          cases h2
      have heq : attrFold (some s :: ds) docs (some r) =
          if unindent s ≠ "" ∧
              (∀ l, (some r : Option String) = some l → substr (unindent s) l = false) then
            attrFold ds (docs ++ [unindent s]) (some (unindent s))
          else attrFold ds docs (some r) := rfl
      rw [heq, if_neg hc]
      exact ih docs r (fun d hd => h d (List.mem_cons_of_mem _ hd))

/-- Updating one function's doc changes a member's resolved doc either
not at all or to the written string. -/
theorem memberDoc_upd (m : Member) (σ : DocStore) (fid : Nat) (r : String) :
    memberDoc (updStore σ fid (some r)) m = memberDoc σ m ∨
    memberDoc (updStore σ fid (some r)) m = some r := by
  cases m with
  | func f n =>
    by_cases h : f = fid
    · right; simp [memberDoc, updStore, h]
    · left; simp [memberDoc, updStore, h]
  | boundm f n =>
    by_cases h : f = fid
    · right; simp [memberDoc, updStore, h]
    · left; simp [memberDoc, updStore, h]
  | marked t => left; rfl
  | data d => left; rfl

/-- After the update, every resolved doc of the chain is absent, was
already resolved before the update, or is the written string. -/
theorem attrDocs_upd :
    ∀ (chain post : List TypeState) (attr : String) (σ : DocStore) (fid : Nat)
      (r : String),
      ∀ d? ∈ attrDocs chain post attr (updStore σ fid (some r)),
        d? = none ∨ ∃ s, d? = some s ∧
          (some s ∈ attrDocs chain post attr σ ∨ s = r) := by
  intro chain
  induction chain with
  | nil => intro post attr σ fid r d? hd; cases hd
  | cons c rest ih =>
    intro post attr σ fid r d? hd
    have hcons : ∀ τ : DocStore, attrDocs (c :: rest) post attr τ =
        (match classGetattr ((c :: rest) ++ post) attr with
          | none => none
          | some m => memberDoc τ m) :: attrDocs rest post attr τ := fun τ => rfl
    rw [hcons] at hd
    rcases List.mem_cons.mp hd with h | h
    · cases hga : classGetattr ((c :: rest) ++ post) attr with
      | none =>
        left
        rw [h, hga]
      | some m =>
        rw [hga] at h
        have h' : d? = memberDoc (updStore σ fid (some r)) m := h
        rcases memberDoc_upd m σ fid r with h2 | h2
        · cases hmd : memberDoc σ m with
          | none => left; rw [h', h2, hmd]
          | some s =>
            right
            refine ⟨s, by rw [h', h2, hmd], Or.inl ?_⟩
            rw [hcons σ, hga]
            show some s ∈ memberDoc σ m :: attrDocs rest post attr σ
            rw [hmd]
            exact List.mem_cons_self _ _
        · right
          exact ⟨r, by rw [h', h2], Or.inr rfl⟩
    · rcases ih post attr σ fid r d? h with h2 | ⟨s, hs1, hs2⟩
      · left; exact h2
      · right
        refine ⟨s, hs1, ?_⟩
        rcases hs2 with h3 | h3
        · left
          rw [hcons σ]
          exact List.mem_cons_of_mem _ h3
        · right; exact h3

/-- Claim C5 (amended): re-running `attr_docstr` after its first result
has been written onto the member found by the full-chain raw lookup
yields the same string again, provided normalization leaves that result
unchanged - the proviso the counterexample shows is necessary. -/
theorem C5_amended (chain post : List TypeState) (attr : String) (σ : DocStore)
    (fid : Nat) (nm : String) (r : String)
    (h1 : rawLookup (chain ++ post) attr = some (Member.func fid nm))
    (h2 : attr_docstr chain post attr σ = some r)
    (h3 : unindent r = r) :
    attr_docstr chain post attr (updStore σ fid (some r)) = some r := by
  have hK : ∃ K, attrKept chain post attr σ = K ∧ K ≠ [] ∧
      joinSep K.reverse = r := by
    unfold attr_docstr at h2
    cases hk : attrKept chain post attr σ with
    | nil => rw [hk] at h2; exact absurd h2 (by simp)
    | cons x xs =>
      rw [hk] at h2
      exact ⟨x :: xs, rfl, by simp, Option.some.inj h2⟩
  obtain ⟨K, hKeq, hKne, hKr⟩ := hK
  have F1 : ∀ b ∈ K, b ≠ "" := by
    rw [← hKeq]
    exact attrFold_nonempty _ [] none (by simp)
  have F2 : r ≠ "" := by
    rw [← hKr]
    exact joinSep_ne_empty (by simpa using hKne)
      (fun b hb => F1 b (List.mem_reverse.mp hb))
  have F3 : ∀ b ∈ K, substr b r = true := by
    intro b hb
    rw [← hKr]
    exact substr_joinSep (List.mem_reverse.mpr hb)
  have F4 : ∀ s, some s ∈ attrDocs chain post attr σ → unindent s ≠ "" →
      substr (unindent s) r = true := by
    intro s hs hne
    obtain ⟨b, hb, hsub⟩ := attrFold_examined (attrDocs chain post attr σ) []
      none (by simp) s hs hne
    rw [show attrFold (attrDocs chain post attr σ) [] none =
      attrKept chain post attr σ from rfl, hKeq] at hb
    exact substr_trans hsub (F3 b hb)
  cases chain with
  | nil => exact Option.noConfusion h2
  | cons c0 rest =>
    have hga : classGetattr ((c0 :: rest) ++ post) attr =
        some (Member.func fid nm) := by
      unfold classGetattr
      rw [h1]
      rfl
    have hhead : attrDocs (c0 :: rest) post attr (updStore σ fid (some r)) =
        some r :: attrDocs rest post attr (updStore σ fid (some r)) := by
      show (match classGetattr ((c0 :: rest) ++ post) attr with
        | none => none
        | some m => memberDoc (updStore σ fid (some r)) m) ::
          attrDocs rest post attr (updStore σ fid (some r)) = _
      rw [hga]
      simp [memberDoc, updStore]
    unfold attr_docstr attrKept
    rw [hhead]
    have hcond : unindent r ≠ "" ∧
        (∀ l, (none : Option String) = some l → substr (unindent r) l = false) :=
      ⟨by rw [h3]; exact F2, by intro l hl; cases hl⟩
    have hstep : attrFold
        (some r :: attrDocs rest post attr (updStore σ fid (some r))) [] none =
        attrFold (attrDocs rest post attr (updStore σ fid (some r)))
          [unindent r] (some (unindent r)) := by
      show (if unindent r ≠ "" ∧
            (∀ l, (none : Option String) = some l → substr (unindent r) l = false) then
          attrFold (attrDocs rest post attr (updStore σ fid (some r)))
            ([] ++ [unindent r]) (some (unindent r))
        else attrFold (attrDocs rest post attr (updStore σ fid (some r))) [] none) = _
      rw [if_pos hcond]
      rfl
    rw [hstep, h3]
    have habs : attrFold (attrDocs rest post attr (updStore σ fid (some r))) [r]
        (some r) = [r] := by
      apply attrFold_absorb
      intro d? hd s hds
      rcases attrDocs_upd rest post attr σ fid r d? hd with hnone | ⟨s0, hs0, hmem⟩
      · rw [hnone] at hds; cases hds
      · rw [hs0] at hds
        have hss : s0 = s := Option.some.inj hds
        subst hss
        rcases hmem with hm | hm
        · by_cases hne : unindent s0 = ""
          · exact Or.inl hne
          · refine Or.inr (F4 s0 ?_ hne)
            rw [show attrDocs (c0 :: rest) post attr σ =
              (match classGetattr ((c0 :: rest) ++ post) attr with
                | none => none
                | some m => memberDoc σ m) :: attrDocs rest post attr σ from rfl]
            exact List.mem_cons_of_mem _ hm
        · subst hm
          exact Or.inr (by rw [h3]; exact substr_refl _)
    rw [habs]
    have hjoin : joinSep [r].reverse = r := by cases r; rfl
    show some (joinSep [r].reverse) = some r
    rw [hjoin]

/-- Claim C5 counterexample: idempotence fails when normalization
shifts the assigned result.  With the override's doc the one-line
indented `"  A"` and the base's `"B"`, the first run yields
`"B\n\n  A"`; after assigning it onto the override, the second run
re-normalizes it to `"B\n\nA"` - a different string.  With three
indented one-line docs `"  A"`/`"  M"`/`"  X"` the failure is worse:
the first run yields `"  X\n\n  M\n\n  A"`, and the second run dedents
the head block so that the middle and base blocks are no longer
substrings of it and are KEPT AGAIN - the result
`"  X\n\n  M\n\n  X\n\nM\n\nA"` is neither the assigned string nor its
re-normalization `"  X\n\nM\n\nA"`. -/
theorem C5_counterexample :
    attr_docstr [fixC, fixB] [] "m" fixStoreIndent = some "B\n\n  A" ∧
    attr_docstr [fixC, fixB] [] "m"
      (updStore fixStoreIndent 0 (some "B\n\n  A")) = some "B\n\nA" ∧
    ("B\n\nA" : String) ≠ "B\n\n  A" ∧
    attr_docstr [fixC, fixB, fixX] [] "m" fixStore3 =
      some "  X\n\n  M\n\n  A" ∧
    attr_docstr [fixC, fixB, fixX] [] "m"
      (updStore fixStore3 0 (some "  X\n\n  M\n\n  A")) =
      some "  X\n\n  M\n\n  X\n\nM\n\nA" ∧
    unindent "  X\n\n  M\n\n  A" = "  X\n\nM\n\nA" ∧
    ("  X\n\n  M\n\n  X\n\nM\n\nA" : String) ≠ "  X\n\n  M\n\n  A" ∧
    ("  X\n\n  M\n\n  X\n\nM\n\nA" : String) ≠ "  X\n\nM\n\nA" := by decide

/-- Claim C5 witness: with flush-left docstrings (the common case) the
proviso holds and re-running the resolver reproduces the assigned
string. -/
theorem C5_amended_witness :
    attr_docstr [fixC, fixB] [] "m"
      (updStore fixStore 0 (some "base\n\nover")) = some "base\n\nover" :=
  C5_amended [fixC, fixB] [] "m" fixStore 0 "m" "base\n\nover"
    (by decide) (by decide) (by decide)

end JhsiaoDecorate
